import Mathlib

/-
Verification of the interval-merging program `src/main.cpp`
(repository CytheY/merge-interval).

The program consists of
  * class `Interval` (two public `int` fields `min`, `max`),
  * `merge` (lines 55-93): a single backward pass over a
    `std::vector<Interval>` taken by value; for the element at the
    backward iterator `it` the inner loop scans the whole vector from
    the front and, at the first position `iter != it` whose element
    `comp` satisfies rule (a) `cur.min >= comp.min && cur.max <= comp.max`
    the current element is erased, and at the first position whose
    element satisfies rule (b)
    `comp.min <= cur.max && cur.max <= comp.max && cur.min < comp.min`
    the compared element is overwritten with `{cur.min, comp.max}` and
    the current element is erased,
  * `testMerge` (lines 102-135): runs `merge`, compares the result with
    an expected vector via `std::equal` (element by element, in order)
    and prints a success/failure banner; it is declared `bool` but
    contains no return statement,
  * `main`: a fixed battery of `testMerge` calls.

Machine integers: the program only copies and compares `int` values and
never performs arithmetic on them, so `int` is embedded as `Int`
(no overflow is possible).
-/

set_option maxHeartbeats 1000000

namespace MergeInterval

/-- The C++ class `Interval` (src/main.cpp lines 18-24): a lower
boundary `min` and an upper boundary `max`, both `int`. -/
structure Interval where
  min : Int
  max : Int
deriving DecidableEq, Repr

/-- Rule (a) of `merge` (src/main.cpp line 69):
`currentInterval.min >= compInterval.min && currentInterval.max <= compInterval.max`. -/
def ruleA (cur comp : Interval) : Bool :=
  decide (cur.min ≥ comp.min) && decide (cur.max ≤ comp.max)

/-- Rule (b) of `merge` (src/main.cpp lines 77-78):
`compInterval.min <= currentInterval.max && currentInterval.max <= compInterval.max
 && currentInterval.min < compInterval.min`. -/
def ruleB (cur comp : Interval) : Bool :=
  decide (comp.min ≤ cur.max) && decide (cur.max ≤ comp.max) && decide (cur.min < comp.min)

/-- The inner loop of `merge` acts at the first position whose element
satisfies rule (a) or rule (b). -/
def fires (cur comp : Interval) : Bool := ruleA cur comp || ruleB cur comp

/-- The inner loop of `merge` (src/main.cpp lines 60-89): scan the
vector from the front (`iter` from `begin()` to `end()`), skip the
position of the backward iterator (`it == iter`, line 62), and stop at
the first element for which rule (a) or rule (b) holds.  Returns that
position and element, or `none` when the scan falls through. -/
def firstFire (l : List Interval) (i : Nat) (cur : Interval) : Option (Nat × Interval) :=
  l.enum.find? fun jc => decide (jc.1 ≠ i) && fires cur jc.2

/-- One iteration of the outer loop of `merge` for backward-iterator
position `i`: `currentInterval` is copied out of the vector (line 59),
the inner scan runs, and on a hit either the current element is erased
(rule (a), line 73) or the compared element is overwritten with
`{currentInterval.min, compInterval.max}` (lines 82-83) and the current
element is erased (line 86).  `break` follows each erase, so at most
one collapse happens per outer iteration. -/
def step (l : List Interval) (i : Nat) : List Interval :=
  match l[i]? with
  | none => l
  | some cur =>
    match firstFire l i cur with
    | none => l
    | some (j, comp) =>
      if ruleA cur comp then l.eraseIdx i
      else (l.set j { min := cur.min, max := comp.max }).eraseIdx i

/-- The outer loop of `merge` (src/main.cpp line 57):
`for(auto it = list.end() - 1; it >= list.begin(); --it)`.  The
backward iterator starts at index `length - 1` and decreases by one
after every iteration; erasing the current element shifts no element
below it, so the sequence of visited indices is `length - 1, ..., 0`
regardless of the erasures.  `mergeAux (n + 1) l` performs the
iteration with the iterator at index `n` and continues downward. -/
def mergeAux : Nat → List Interval → List Interval
  | 0, l => l
  | n + 1, l => mergeAux n (step l n)

/-- The function `merge` of src/main.cpp lines 55-93.  The
`std::vector<Interval>` parameter is taken by value, so the body works
on a copy; the returned vector is that copy after the backward pass. -/
def merge (l : List Interval) : List Interval := mergeAux l.length l

/-- The comparison `testMerge` performs (src/main.cpp lines 117-119):
`std::equal(result.begin(), result.end(), expected.begin(), lambda)`
with the lambda `a.min == b.min && a.max == b.max`; element `k` of
`result` is compared with element `k` of `expected`, in order.  (The
three-iterator `std::equal` reads `expected` out of bounds when
`expected` is shorter than `result`; the embedding compares the common
prefix, which coincides with the C++ behavior whenever
`expected.length ≥ result.length`.) -/
def stdEqual (result expected : List Interval) : Bool :=
  (result.zip expected).all fun ab =>
    decide (ab.1.min = ab.2.min) && decide (ab.1.max = ab.2.max)

/-- Observable outcome of one `testMerge` call: `success` records which
banner the function prints (`true` for "Test Successfull", line 133;
`false` for either failure banner, lines 123 and 128), and `ret` is the
value the caller receives for the declared `bool` result — `none`
because no control path of the body executes a `return` statement
(lines 102-135). -/
structure TestMergeResult where
  success : Bool
  ret : Option Bool
deriving Repr

/-- The function `testMerge` of src/main.cpp lines 102-135, restricted
to its observable outcome (the `verbose` pretty-printing on lines
107-115 only prints and is dropped).  `result = merge input`
(line 105), `equal` is the `std::equal` comparison (lines 117-119); the
branch on `result.size() != expected.size()` prints the size-mismatch
failure banner, the branch on `!equal` prints the content-mismatch
failure banner, and otherwise the success banner is printed
(lines 121-134).  No branch returns a value. -/
def testMerge (input expected : List Interval) : TestMergeResult :=
  let result := merge input
  let equal := stdEqual result expected
  if result.length ≠ expected.length then { success := false, ret := none }
  else if equal = false then { success := false, ret := none }
  else { success := true, ret := none }

/-- C++ call frame for `merge`: the caller's vector and the callee's
by-value copy.  `merge` is declared
`std::vector<Interval> merge(std::vector<Interval> list)`
(line 55), so the callee owns a copy. -/
structure CallEnv where
  callerList : List Interval
  calleeList : List Interval
deriving Repr

/-- Entering the call `merge(x)`: pass-by-value initializes the
callee's `list` with a copy of the caller's vector. -/
def callInit (x : List Interval) : CallEnv := { callerList := x, calleeList := x }

/-- One outer-loop iteration inside the call: `list.erase` and the
writes through `iter` (lines 73, 82-83, 86) all act on the callee's
copy `list`; the caller's vector is not touched. -/
def callStep (e : CallEnv) (i : Nat) : CallEnv :=
  { callerList := e.callerList, calleeList := step e.calleeList i }

/-- Running the whole outer loop inside the call frame. -/
def callRun : Nat → CallEnv → CallEnv
  | 0, e => e
  | n + 1, e => callRun n (callStep e n)

/-- The complete call `merge(x)` as seen from the caller. -/
def callMerge (x : List Interval) : CallEnv := callRun x.length (callInit x)

/-! ### Propositional forms of the two collapse rules -/

/-- Rule (a) as a proposition: the current element is contained in the
compared element. -/
def ruleAP (cur comp : Interval) : Prop :=
  comp.min ≤ cur.min ∧ cur.max ≤ comp.max

/-- Rule (b) as a proposition: the current element overlaps the
compared element from the left. -/
def ruleBP (cur comp : Interval) : Prop :=
  comp.min ≤ cur.max ∧ cur.max ≤ comp.max ∧ cur.min < comp.min

/-- The inner scan stops at `comp` exactly when one of the two rules
holds for the ordered pair (current, compared). -/
def fire (cur comp : Interval) : Prop := ruleAP cur comp ∨ ruleBP cur comp

/-! ### The central invariant of the backward pass

Before the outer-loop iteration at index `n`, the elements at positions
`≥ n + 1` have already been visited.  The invariant states that (1) the
visited elements are pairwise non-firing in both orders, and (2) no
visited element fires on any element at a position `≤ n`. -/

def Inv (n : Nat) (l : List Interval) : Prop :=
  (∀ i j ci cj, n ≤ i → i < j → l[i]? = some ci → l[j]? = some cj →
      ¬ fire ci cj ∧ ¬ fire cj ci) ∧
  (∀ i j ci cj, i < n → n ≤ j → l[i]? = some ci → l[j]? = some cj →
      ¬ fire cj ci)

/-- A well-formed interval: `min ≤ max`. -/
def wfI (x : Interval) : Prop := x.min ≤ x.max

/-- `t` is covered by (the union of) the intervals in `l`. -/
def covers (l : List Interval) (t : Int) : Prop :=
  ∃ x ∈ l, x.min ≤ t ∧ t ≤ x.max

/-! ### Hulls of the well-formed part of a family

`[a, b]` is a hull of a family of intervals when every well-formed
member lies inside `[a, b]` or strictly outside it, both endpoints are
attained by inside members, and no cut point splits the inside members.
These are exactly the connected components of the union of the
well-formed members, and each step of the pass preserves them. -/

def insideI (x : Interval) (a b : Int) : Prop := a ≤ x.min ∧ x.max ≤ b

def offsideI (x : Interval) (a b : Int) : Prop := b < x.min ∨ x.max < a

def isHull (l : List Interval) (a b : Int) : Prop :=
  (∀ x ∈ l, wfI x → insideI x a b ∨ offsideI x a b) ∧
  (∃ x ∈ l, wfI x ∧ insideI x a b ∧ x.min = a) ∧
  (∃ x ∈ l, wfI x ∧ insideI x a b ∧ x.max = b) ∧
  (∀ c : Int, a ≤ c → c < b → ∃ x ∈ l, wfI x ∧ insideI x a b ∧ x.min ≤ c ∧ c < x.max)



instance (x : Interval) : Decidable (wfI x) :=
  inferInstanceAs (Decidable (x.min ≤ x.max))

-- Sanity checks: the embedding reproduces the whole test battery of
-- `main` (src/main.cpp lines 140-200), including the output order the
-- comments there record.
example : merge [⟨25, 30⟩, ⟨2, 19⟩, ⟨14, 23⟩, ⟨4, 8⟩] = [⟨25, 30⟩, ⟨2, 23⟩] := by decide
example : merge [⟨1, 5⟩, ⟨5, 10⟩] = [⟨1, 10⟩] := by decide
example : merge [⟨1, 4⟩, ⟨5, 10⟩] = [⟨1, 4⟩, ⟨5, 10⟩] := by decide
example : merge [⟨1, 4⟩, ⟨2, 4⟩] = [⟨1, 4⟩] := by decide
example : merge [⟨1, 4⟩, ⟨2, 5⟩] = [⟨1, 5⟩] := by decide
example : merge [⟨1, 3⟩, ⟨1, 4⟩] = [⟨1, 4⟩] := by decide
example : merge [⟨1, 4⟩, ⟨1, 4⟩] = [⟨1, 4⟩] := by decide
example : merge [⟨1, 3⟩, ⟨2, 4⟩, ⟨3, 5⟩] = [⟨1, 5⟩] := by decide
example : merge [⟨3, 30⟩, ⟨10, 20⟩, ⟨3, 30⟩, ⟨1, 2⟩, ⟨27, 40⟩] = [⟨1, 2⟩, ⟨3, 40⟩] := by decide
example : merge [⟨3, 30⟩] = [⟨3, 30⟩] := by decide

theorem ruleA_iff {c d : Interval} : ruleA c d = true ↔ ruleAP c d := by
  simp [ruleA, ruleAP, ge_iff_le, Bool.and_eq_true, decide_eq_true_iff]

theorem ruleB_iff {c d : Interval} : ruleB c d = true ↔ ruleBP c d := by
  simp [ruleB, ruleBP, Bool.and_eq_true, decide_eq_true_iff, and_assoc]

theorem fires_iff {c d : Interval} : fires c d = true ↔ fire c d := by
  simp [fires, fire, Bool.or_eq_true, ruleA_iff, ruleB_iff]

/-- Closed form of the scan condition: the scan stops at `d` exactly
when `d.max` bounds `c.max` from above and `d.min` lies below `c.min`
or below `c.max`. -/
theorem fire_iff {c d : Interval} :
    fire c d ↔ c.max ≤ d.max ∧ (d.min ≤ c.min ∨ d.min ≤ c.max) := by
  unfold fire ruleAP ruleBP
  omega

theorem fire_self (c : Interval) : fire c c := by
  unfold fire ruleAP
  omega

/-! ### List index bookkeeping -/

theorem getElem?_some_lt {l : List Interval} {i : Nat} {a : Interval}
    (h : l[i]? = some a) : i < l.length := by
  by_contra hlt
  rw [List.getElem?_eq_none (Nat.le_of_not_lt hlt)] at h
  exact Option.noConfusion h

theorem mem_of_getElem? {l : List Interval} {i : Nat} {a : Interval}
    (h : l[i]? = some a) : a ∈ l :=
  List.mem_iff_getElem?.2 ⟨i, h⟩

theorem mem_eraseIdx_of_getElem? {l : List Interval} {i j : Nat} {a : Interval}
    (h : l[j]? = some a) (hne : j ≠ i) : a ∈ l.eraseIdx i := by
  rcases Nat.lt_or_ge j i with hj | hj
  · refine List.mem_iff_getElem?.2 ⟨j, ?_⟩
    rw [List.getElem?_eraseIdx]
    simp only [hj, if_true]
    exact h
  · have hj1 : i < j := Nat.lt_of_le_of_ne hj (Ne.symm hne)
    refine List.mem_iff_getElem?.2 ⟨j - 1, ?_⟩
    rw [List.getElem?_eraseIdx]
    have : ¬ (j - 1 < i) := by omega
    simp only [this, if_false]
    have : j - 1 + 1 = j := by omega
    rw [this]
    exact h

theorem mem_of_mem_eraseIdx {l : List Interval} {i : Nat} {a : Interval}
    (h : a ∈ l.eraseIdx i) : a ∈ l :=
  (List.eraseIdx_sublist l i).mem h

theorem mem_eraseIdx_of_ne {l : List Interval} {i : Nat} {a cur : Interval}
    (ha : a ∈ l) (hcur : l[i]? = some cur) (hne : a ≠ cur) : a ∈ l.eraseIdx i := by
  rcases List.mem_iff_getElem?.1 ha with ⟨k, hk⟩
  refine mem_eraseIdx_of_getElem? hk fun h => ?_
  subst h
  rw [hk] at hcur
  exact hne (Option.some.inj hcur)

theorem mem_set_eraseIdx_cases {l : List Interval} {i j : Nat} {v a : Interval}
    (h : a ∈ (l.set j v).eraseIdx i) : a = v ∨ a ∈ l := by
  have := mem_of_mem_eraseIdx h
  rcases List.mem_or_eq_of_mem_set this with h2 | h2
  · exact Or.inr h2
  · exact Or.inl h2

theorem v_mem_set_eraseIdx {l : List Interval} {i j : Nat} {v : Interval}
    (hlt : j < l.length) (hne : j ≠ i) : v ∈ (l.set j v).eraseIdx i := by
  refine mem_eraseIdx_of_getElem? ?_ hne
  exact List.getElem?_set_eq_of_lt v hlt

theorem mem_set_eraseIdx_of_ne {l : List Interval} {i j : Nat} {v a cur comp : Interval}
    (ha : a ∈ l) (hcur : l[i]? = some cur) (hcomp : l[j]? = some comp)
    (h1 : a ≠ cur) (h2 : a ≠ comp) : a ∈ (l.set j v).eraseIdx i := by
  rcases List.mem_iff_getElem?.1 ha with ⟨k, hk⟩
  have hki : k ≠ i := fun h => by
    subst h; rw [hk] at hcur; exact h1 (Option.some.inj hcur)
  have hkj : k ≠ j := fun h => by
    subst h; rw [hk] at hcomp; exact h2 (Option.some.inj hcomp)
  refine mem_eraseIdx_of_getElem? ?_ hki
  rw [List.getElem?_set_ne (Ne.symm hkj)]
  exact hk

/-! ### Case analysis of one outer-loop iteration -/

/-- Everything one needs to know about `step l i`: either nothing fires
and the list is unchanged, or the scan found `comp = l[j]` (`j ≠ i`)
with `fire cur comp` for `cur = l[i]`, in which case the step is the
rule-(a) erase or the rule-(b) overwrite-and-erase. -/
theorem firstFire_some_facts {l : List Interval} {i j : Nat} {cur comp : Interval}
    (h : firstFire l i cur = some (j, comp)) :
    l[j]? = some comp ∧ j ≠ i ∧ j < l.length ∧ fire cur comp := by
  have hpred := List.find?_some h
  have hmem := List.mem_of_find?_eq_some h
  rw [List.mem_enum_iff_getElem?] at hmem
  simp only [Bool.and_eq_true, decide_eq_true_iff] at hpred
  exact ⟨hmem, hpred.1, getElem?_some_lt hmem, fires_iff.1 hpred.2⟩

/-- Everything one needs to know about `step l i`: either nothing fires
and the list is unchanged, or the scan found `comp = l[j]` (`j ≠ i`)
with `fire cur comp` for `cur = l[i]`, in which case the step is the
rule-(a) erase or the rule-(b) overwrite-and-erase. -/
theorem step_cases (l : List Interval) (i : Nat) :
    step l i = l ∨
    ∃ cur comp j, l[i]? = some cur ∧ l[j]? = some comp ∧ j ≠ i ∧ j < l.length ∧
      ((ruleAP cur comp ∧ step l i = l.eraseIdx i) ∨
       (ruleBP cur comp ∧
         step l i = (l.set j { min := cur.min, max := comp.max }).eraseIdx i)) := by
  cases hcur : l[i]? with
  | none => exact Or.inl (by simp [step, hcur])
  | some cur =>
    cases hff : firstFire l i cur with
    | none => exact Or.inl (by simp [step, hcur, hff])
    | some jc =>
      obtain ⟨j, comp⟩ := jc
      obtain ⟨hj, hji, hjlt, hfire⟩ := firstFire_some_facts hff
      cases hA : ruleA cur comp with
      | true =>
        refine Or.inr ⟨cur, comp, j, rfl, hj, hji, hjlt, Or.inl ⟨ruleA_iff.1 hA, ?_⟩⟩
        simp [step, hcur, hff, hA]
      | false =>
        have hBP : ruleBP cur comp := by
          rcases hfire with h | h
          · exact absurd (ruleA_iff.2 h) (by simp [hA])
          · exact h
        refine Or.inr ⟨cur, comp, j, rfl, hj, hji, hjlt, Or.inr ⟨hBP, ?_⟩⟩
        simp [step, hcur, hff, hA]

/-- The scan came back empty: no element other than the current one
fires. -/
theorem step_none_facts {l : List Interval} {i : Nat} {cur : Interval}
    (_hcur : l[i]? = some cur) (hff : firstFire l i cur = none) :
    ∀ j comp, l[j]? = some comp → j ≠ i → ¬ fire cur comp := by
  intro j comp hj hji hfire
  have := List.find?_eq_none.1 hff (j, comp) (List.mem_enum_iff_getElem?.2 hj)
  simp only [Bool.and_eq_true, decide_eq_true_iff] at this
  exact this ⟨hji, fires_iff.2 hfire⟩

/-- Run an invariant through the whole outer loop. -/
theorem mergeAux_invariant (P : List Interval → Prop)
    (hstep : ∀ l i, P l → P (step l i)) :
    ∀ n l, P l → P (mergeAux n l) := by
  intro n
  induction n with
  | zero => intro l h; exact h
  | succ n ih => intro l h; exact ih (step l n) (hstep l n h)

theorem merge_invariant (P : List Interval → Prop)
    (hstep : ∀ l i, P l → P (step l i)) (l : List Interval) (h : P l) :
    P (merge l) :=
  mergeAux_invariant P hstep l.length l h

theorem mk_min (a b : Int) : (Interval.mk a b).min = a := rfl

theorem mk_max (a b : Int) : (Interval.mk a b).max = b := rfl

theorem inv_init (l : List Interval) : Inv l.length l := by
  constructor
  · intro i j ci cj hni hij hgi hgj
    have := getElem?_some_lt hgi
    omega
  · intro i j ci cj hi hnj hgi hgj
    have := getElem?_some_lt hgj
    omega

/-- Preservation in the fall-through case: the scan found nothing, the
list is unchanged, and the current element joins the visited region. -/
theorem inv_none {n : Nat} {l : List Interval} {cur : Interval}
    (h : Inv (n + 1) l) (hcur : l[n]? = some cur)
    (hscan : ∀ j comp, l[j]? = some comp → j ≠ n → ¬ fire cur comp) :
    Inv n l := by
  constructor
  · intro i j ci cj hni hij hgi hgj
    by_cases hi : n + 1 ≤ i
    · exact h.1 i j ci cj hi hij hgi hgj
    · have hieq : n = i := by omega
      subst hieq
      have hci : ci = cur := by rw [hgi] at hcur; exact Option.some.inj hcur
      constructor
      · rw [hci]; exact hscan j cj hgj (by omega)
      · exact h.2 n j ci cj (by omega) (by omega) hgi hgj
  · intro i j ci cj hi hnj hgi hgj
    by_cases hj : n + 1 ≤ j
    · exact h.2 i j ci cj (by omega) hj hgi hgj
    · have hjeq : n = j := by omega
      subst hjeq
      have hcj : cj = cur := by rw [hgj] at hcur; exact Option.some.inj hcur
      rw [hcj]
      exact hscan i ci hgi (by omega)

/-- Preservation in the rule-(a) case: the current element is erased
and nothing else changes. -/
theorem inv_eraseA {n : Nat} {l : List Interval}
    (h : Inv (n + 1) l) : Inv n (l.eraseIdx n) := by
  constructor
  · intro i j ci cj hni hij hgi hgj
    rw [List.getElem?_eraseIdx] at hgi hgj
    have hi2 : ¬ (i < n) := by omega
    have hj2 : ¬ (j < n) := by omega
    simp only [hi2, hj2, if_false] at hgi hgj
    exact h.1 (i + 1) (j + 1) ci cj (by omega) (by omega) hgi hgj
  · intro i j ci cj hi hnj hgi hgj
    rw [List.getElem?_eraseIdx] at hgi hgj
    have hi2 : i < n := by omega
    have hj2 : ¬ (j < n) := by omega
    simp only [hi2, hj2, if_true, if_false] at hgi hgj
    exact h.2 i (j + 1) ci cj (by omega) (by omega) hgi hgj

/-- Preservation in the rule-(b) case: the compared element `comp` at
position `j` is overwritten with `⟨cur.min, comp.max⟩` and the current
element at position `n` is erased. -/
theorem inv_eraseB {n j : Nat} {l : List Interval} {cur comp : Interval}
    (h : Inv (n + 1) l) (hcur : l[n]? = some cur) (hcomp : l[j]? = some comp)
    (hji : j ≠ n) (hBP : ruleBP cur comp) :
    Inv n ((l.set j (Interval.mk cur.min comp.max)).eraseIdx n) := by
  obtain ⟨hb1, hb2, hb3⟩ := hBP
  have hjlen : j < l.length := getElem?_some_lt hcomp
  have key1 : ∀ J q, n + 1 ≤ J → l[J]? = some q → ¬ fire q cur :=
    fun J q hJ hq => h.2 n J cur q (by omega) hJ hcur hq
  constructor
  · intro i2 j2 ci cj hni hij hgi hgj
    rw [List.getElem?_eraseIdx] at hgi hgj
    have hi2 : ¬ (i2 < n) := by omega
    have hj2 : ¬ (j2 < n) := by omega
    simp only [hi2, hj2, if_false] at hgi hgj
    rw [List.getElem?_set] at hgi hgj
    by_cases hj_i : j = i2 + 1
    · subst hj_i
      simp only [if_pos rfl, hjlen, if_true] at hgi
      have hj_j : ¬ (i2 + 1 = j2 + 1) := by omega
      rw [if_neg hj_j] at hgj
      have hci : ci = Interval.mk cur.min comp.max := (Option.some.inj hgi).symm
      subst hci
      have hpair : ¬ fire comp cj ∧ ¬ fire cj comp := by
        rcases Nat.lt_or_ge (i2 + 1) (j2 + 1) with hlt | hge
        · exact h.1 (i2 + 1) (j2 + 1) comp cj (by omega) hlt hcomp hgj
        · have := h.1 (j2 + 1) (i2 + 1) cj comp (by omega) (by omega) hgj hcomp
          exact ⟨this.2, this.1⟩
      obtain ⟨hp1, hp2⟩ := hpair
      have hqcur : ¬ fire cj cur := key1 (j2 + 1) cj (by omega) hgj
      rw [fire_iff] at hp1 hp2 hqcur
      constructor
      · rw [fire_iff]; simp only [mk_min, mk_max]; omega
      · rw [fire_iff]; simp only [mk_min, mk_max]; omega
    · rw [if_neg hj_i] at hgi
      by_cases hj_j : j = j2 + 1
      · subst hj_j
        simp only [if_pos rfl, hjlen, if_true] at hgj
        have hcj : cj = Interval.mk cur.min comp.max := (Option.some.inj hgj).symm
        subst hcj
        have hpair : ¬ fire comp ci ∧ ¬ fire ci comp := by
          rcases Nat.lt_or_ge (j2 + 1) (i2 + 1) with hlt | hge
          · exact h.1 (j2 + 1) (i2 + 1) comp ci (by omega) hlt hcomp hgi
          · have := h.1 (i2 + 1) (j2 + 1) ci comp (by omega) (by omega) hgi hcomp
            exact ⟨this.2, this.1⟩
        obtain ⟨hp1, hp2⟩ := hpair
        have hqcur : ¬ fire ci cur := key1 (i2 + 1) ci (by omega) hgi
        rw [fire_iff] at hp1 hp2 hqcur
        constructor
        · rw [fire_iff]; simp only [mk_min, mk_max]; omega
        · rw [fire_iff]; simp only [mk_min, mk_max]; omega
      · rw [if_neg hj_j] at hgj
        exact h.1 (i2 + 1) (j2 + 1) ci cj (by omega) (by omega) hgi hgj
  · intro i2 j2 ci cj hi hnj hgi hgj
    rw [List.getElem?_eraseIdx] at hgi hgj
    have hi2 : i2 < n := by omega
    have hj2 : ¬ (j2 < n) := by omega
    simp only [hi2, hj2, if_true, if_false] at hgi hgj
    rw [List.getElem?_set] at hgi hgj
    by_cases hj_j : j = j2 + 1
    · subst hj_j
      simp only [if_pos rfl, hjlen, if_true] at hgj
      have hj_i : ¬ (j2 + 1 = i2) := by omega
      rw [if_neg hj_i] at hgi
      have hcj : cj = Interval.mk cur.min comp.max := (Option.some.inj hgj).symm
      subst hcj
      have hqcomp : ¬ fire comp ci := h.2 i2 (j2 + 1) ci comp (by omega) (by omega) hgi hcomp
      rw [fire_iff] at hqcomp
      rw [fire_iff]
      simp only [mk_min, mk_max]
      omega
    · rw [if_neg hj_j] at hgj
      by_cases hj_i : j = i2
      · subst hj_i
        simp only [if_pos rfl, hjlen, if_true] at hgi
        have hci : ci = Interval.mk cur.min comp.max := (Option.some.inj hgi).symm
        subst hci
        have hqcomp : ¬ fire cj comp := h.2 j (j2 + 1) comp cj (by omega) (by omega) hcomp hgj
        have hqcur : ¬ fire cj cur := key1 (j2 + 1) cj (by omega) hgj
        rw [fire_iff] at hqcomp hqcur
        rw [fire_iff]
        simp only [mk_min, mk_max]
        omega
      · rw [if_neg hj_i] at hgi
        exact h.2 i2 (j2 + 1) ci cj (by omega) (by omega) hgi hgj

/-- One outer-loop iteration preserves the invariant and moves the
boundary down by one. -/
theorem inv_step {n : Nat} {l : List Interval} (hn : n < l.length)
    (h : Inv (n + 1) l) : Inv n (step l n) := by
  cases hcur : l[n]? with
  | none =>
    exact absurd hcur (by simp [List.getElem?_eq_getElem hn])
  | some cur =>
    cases hff : firstFire l n cur with
    | none =>
      have heq : step l n = l := by simp [step, hcur, hff]
      rw [heq]
      exact inv_none h hcur (step_none_facts hcur hff)
    | some jc =>
      obtain ⟨j, comp⟩ := jc
      obtain ⟨hj, hji, hjlt, hfire⟩ := firstFire_some_facts hff
      cases hA : ruleA cur comp with
      | true =>
        have heq : step l n = l.eraseIdx n := by simp [step, hcur, hff, hA]
        rw [heq]
        exact inv_eraseA h
      | false =>
        have hBP : ruleBP cur comp := by
          rcases hfire with hr | hr
          · exact absurd (ruleA_iff.2 hr) (by simp [hA])
          · exact hr
        have heq : step l n = (l.set j (Interval.mk cur.min comp.max)).eraseIdx n := by
          simp [step, hcur, hff, hA]
        rw [heq]
        exact inv_eraseB h hcur hj hji hBP

/-- Each outer-loop iteration erases at most one element. -/
theorem step_length (l : List Interval) (i : Nat) :
    (step l i).length = l.length ∨ (step l i).length + 1 = l.length := by
  rcases step_cases l i with heq | ⟨cur, comp, j, hcur, hcomp, hji, hjlt, hcase⟩
  · exact Or.inl (by rw [heq])
  · have hi : i < l.length := getElem?_some_lt hcur
    rcases hcase with ⟨_, heq⟩ | ⟨_, heq⟩
    · rw [heq, List.length_eraseIdx]
      simp only [hi, if_true]
      omega
    · rw [heq, List.length_eraseIdx, List.length_set]
      simp only [hi, if_true]
      omega

/-- The invariant holds with boundary `0` for the final list of the
pass: the output is pairwise non-firing. -/
theorem merge_inv (l : List Interval) : Inv 0 (merge l) := by
  have main : ∀ k m, k ≤ m.length → Inv k m → Inv 0 (mergeAux k m) := by
    intro k
    induction k with
    | zero => intro m _ h; exact h
    | succ k ih =>
      intro m hk h
      refine ih (step m k) ?_ (inv_step (by omega) h)
      rcases step_length m k with h2 | h2 <;> omega
  exact main l.length l (le_refl _) (inv_init l)

/-- The output of `merge` is pairwise non-firing in both orders. -/
theorem merge_pairwise_nofire {l : List Interval} {i j : Nat} {ci cj : Interval}
    (hij : i ≠ j) (hgi : (merge l)[i]? = some ci) (hgj : (merge l)[j]? = some cj) :
    ¬ fire ci cj := by
  have h := merge_inv l
  rcases Nat.lt_or_ge i j with hlt | hge
  · exact (h.1 i j ci cj (Nat.zero_le i) hlt hgi hgj).1
  · have hlt : j < i := by omega
    exact (h.1 j i cj ci (Nat.zero_le j) hlt hgj hgi).2

/-! ### Well-formedness is preserved -/



/-- Every element of the working list stays well-formed: erasures only
drop elements, and the rule-(b) overwrite `⟨cur.min, comp.max⟩`
satisfies `cur.min < comp.min ≤ cur.max ≤ comp.max`. -/
theorem step_wf {l : List Interval} {i : Nat}
    (h : ∀ x ∈ l, wfI x) : ∀ x ∈ step l i, wfI x := by
  rcases step_cases l i with heq | ⟨cur, comp, j, hcur, hcomp, hji, hjlt, hcase⟩
  · rw [heq]; exact h
  · rcases hcase with ⟨_, heq⟩ | ⟨hBP, heq⟩
    · rw [heq]
      intro x hx
      exact h x (mem_of_mem_eraseIdx hx)
    · rw [heq]
      intro x hx
      rcases mem_set_eraseIdx_cases hx with hv | hv
      · subst hv
        obtain ⟨hb1, hb2, hb3⟩ := hBP
        unfold wfI
        simp only [mk_min, mk_max]
        omega
      · exact h x hv

theorem merge_wf {l : List Interval} (h : ∀ x ∈ l, wfI x) :
    ∀ x ∈ merge l, wfI x :=
  merge_invariant (fun m => ∀ x ∈ m, wfI x) (fun _ _ hm => step_wf hm) l h

/-! ### A pairwise non-firing list is a fixed point of the pass -/

theorem step_of_nofire {l : List Interval}
    (h : ∀ (i j : Nat) (ci cj : Interval),
      i ≠ j → l[i]? = some ci → l[j]? = some cj → ¬ fire ci cj)
    (i : Nat) : step l i = l := by
  cases hcur : l[i]? with
  | none => simp [step, hcur]
  | some cur =>
    cases hff : firstFire l i cur with
    | none => simp [step, hcur, hff]
    | some jc =>
      obtain ⟨j, comp⟩ := jc
      obtain ⟨hj, hji, hjlt, hfire⟩ := firstFire_some_facts hff
      exact absurd hfire (h i j cur comp (fun he => hji he.symm) hcur hj)

theorem mergeAux_of_nofire {l : List Interval}
    (h : ∀ (i j : Nat) (ci cj : Interval),
      i ≠ j → l[i]? = some ci → l[j]? = some cj → ¬ fire ci cj) :
    ∀ k, mergeAux k l = l := by
  intro k
  induction k with
  | zero => rfl
  | succ k ih =>
    show mergeAux k (step l k) = l
    rw [step_of_nofire h k]
    exact ih

/-- Re-merging a merged list changes nothing at all. -/
theorem merge_merge (l : List Interval) : merge (merge l) = merge l := by
  unfold merge
  exact mergeAux_of_nofire (fun i j ci cj hij hgi hgj =>
    merge_pairwise_nofire hij hgi hgj) (mergeAux l.length l).length

/-! ### Coverage -/



theorem step_covers (l : List Interval) (i : Nat) (t : Int) :
    covers (step l i) t ↔ covers l t := by
  rcases step_cases l i with heq | ⟨cur, comp, j, hcur, hcomp, hji, hjlt, hcase⟩
  · rw [heq]
  · rcases hcase with ⟨hAP, heq⟩ | ⟨hBP, heq⟩
    · rw [heq]
      constructor
      · rintro ⟨x, hx, hx1, hx2⟩
        exact ⟨x, mem_of_mem_eraseIdx hx, hx1, hx2⟩
      · rintro ⟨x, hx, hx1, hx2⟩
        by_cases hxc : x = cur
        · subst hxc
          refine ⟨comp, mem_eraseIdx_of_getElem? hcomp hji, ?_, ?_⟩
          · exact le_trans hAP.1 hx1
          · exact le_trans hx2 hAP.2
        · exact ⟨x, mem_eraseIdx_of_ne hx hcur hxc, hx1, hx2⟩
    · obtain ⟨hb1, hb2, hb3⟩ := hBP
      rw [heq]
      constructor
      · rintro ⟨x, hx, hx1, hx2⟩
        rcases mem_set_eraseIdx_cases hx with hv | hv
        · subst hv
          simp only [mk_min, mk_max] at hx1 hx2
          rcases le_or_lt t cur.max with hle | hlt
          · exact ⟨cur, mem_of_getElem? hcur, hx1, hle⟩
          · exact ⟨comp, mem_of_getElem? hcomp, by omega, hx2⟩
        · exact ⟨x, hv, hx1, hx2⟩
      · rintro ⟨x, hx, hx1, hx2⟩
        by_cases hxc : x = cur
        · subst hxc
          refine ⟨Interval.mk x.min comp.max, ?_, by simp only [mk_min]; exact hx1, ?_⟩
          · have := v_mem_set_eraseIdx (v := Interval.mk x.min comp.max) hjlt hji
            exact this
          · simp only [mk_max]
            omega
        · by_cases hxp : x = comp
          · subst hxp
            refine ⟨Interval.mk cur.min x.max, ?_, ?_, by simp [mk_max, hx2]⟩
            · exact v_mem_set_eraseIdx hjlt hji
            · simp only [mk_min]
              omega
          · exact ⟨x, mem_set_eraseIdx_of_ne hx hcur hcomp hxc hxp, hx1, hx2⟩

theorem merge_covers (l : List Interval) (t : Int) :
    covers (merge l) t ↔ covers l t := by
  have main := merge_invariant (fun m => ∀ s, (covers m s ↔ covers l s))
    (fun m i hm s => (step_covers m i s).trans (hm s)) l (fun s => Iff.rfl)
  exact main t

/-! ### Output boundaries come from input boundaries -/

theorem step_bounds {l0 l : List Interval} {i : Nat}
    (h : ∀ x ∈ l, (∃ a ∈ l0, x.min = a.min) ∧ (∃ b ∈ l0, x.max = b.max)) :
    ∀ x ∈ step l i, (∃ a ∈ l0, x.min = a.min) ∧ (∃ b ∈ l0, x.max = b.max) := by
  rcases step_cases l i with heq | ⟨cur, comp, j, hcur, hcomp, hji, hjlt, hcase⟩
  · rw [heq]; exact h
  · rcases hcase with ⟨_, heq⟩ | ⟨_, heq⟩
    · rw [heq]
      intro x hx
      exact h x (mem_of_mem_eraseIdx hx)
    · rw [heq]
      intro x hx
      rcases mem_set_eraseIdx_cases hx with hv | hv
      · subst hv
        constructor
        · have := (h cur (mem_of_getElem? hcur)).1
          simpa [mk_min] using this
        · have := (h comp (mem_of_getElem? hcomp)).2
          simpa [mk_max] using this
      · exact h x hv

theorem merge_bounds (l : List Interval) :
    ∀ x ∈ merge l, (∃ a ∈ l, x.min = a.min) ∧ (∃ b ∈ l, x.max = b.max) :=
  merge_invariant
    (fun m => ∀ x ∈ m, (∃ a ∈ l, x.min = a.min) ∧ (∃ b ∈ l, x.max = b.max))
    (fun _ _ hm => step_bounds hm) l
    (fun x hx => ⟨⟨x, hx, rfl⟩, ⟨x, hx, rfl⟩⟩)

/-! ### Survival of malformed intervals (`max < min`)

A malformed element never satisfies rule (b) as the current element and
is never overwritten (rule (b) requires a well-formed compared element),
so it survives the pass exactly when no other element can absorb it. -/

theorem ival_ext {a b : Interval} (h1 : a.min = b.min) (h2 : a.max = b.max) : a = b := by
  cases a
  cases b
  simp only [mk_min, mk_max] at h1 h2
  rw [h1, h2]

/-- An absorbing witness survives the step: whenever an element other
than `m` fires for the malformed `m`, the step keeps such an element. -/
theorem step_wit {l : List Interval} {i : Nat} {m : Interval} (hm : m.max < m.min)
    (h : ∃ x ∈ l, x ≠ m ∧ fire m x) : ∃ x ∈ step l i, x ≠ m ∧ fire m x := by
  rcases step_cases l i with heq | ⟨cur, comp, j, hcur, hcomp, hji, hjlt, hcase⟩
  · rw [heq]; exact h
  · obtain ⟨x, hx, hxm, hfx⟩ := h
    rcases hcase with ⟨hAP, heq⟩ | ⟨hBP, heq⟩
    · rw [heq]
      by_cases hxc : x = cur
      · subst hxc
        obtain ⟨ha1, ha2⟩ := hAP
        rw [fire_iff] at hfx
        refine ⟨comp, mem_eraseIdx_of_getElem? hcomp hji, ?_, ?_⟩
        · intro he
          subst he
          exact hxm (ival_ext (by omega) (by omega))
        · rw [fire_iff]
          omega
      · exact ⟨x, mem_eraseIdx_of_ne hx hcur hxc, hxm, hfx⟩
    · rw [heq]
      obtain ⟨hb1, hb2, hb3⟩ := hBP
      by_cases hxc : x = cur
      · subst hxc
        rw [fire_iff] at hfx
        refine ⟨Interval.mk x.min comp.max, v_mem_set_eraseIdx hjlt hji, ?_, ?_⟩
        · intro he
          rw [← he] at hm
          simp only [mk_min, mk_max] at hm
          omega
        · rw [fire_iff]
          simp only [mk_min, mk_max]
          omega
      · by_cases hxp : x = comp
        · subst hxp
          rw [fire_iff] at hfx
          refine ⟨Interval.mk cur.min x.max, v_mem_set_eraseIdx hjlt hji, ?_, ?_⟩
          · intro he
            rw [← he] at hm
            simp only [mk_min, mk_max] at hm
            omega
          · rw [fire_iff]
            simp only [mk_min, mk_max]
            omega
        · exact ⟨x, mem_set_eraseIdx_of_ne hx hcur hcomp hxc hxp, hxm, hfx⟩

/-- When nothing can absorb the malformed `m`, the step keeps `m` and
creates no absorber. -/
theorem step_nwit {l : List Interval} {i : Nat} {m : Interval} (hm : m.max < m.min)
    (h : m ∈ l ∧ ∀ x ∈ l, x ≠ m → ¬ fire m x) :
    m ∈ step l i ∧ ∀ x ∈ step l i, x ≠ m → ¬ fire m x := by
  obtain ⟨hmem, hnw⟩ := h
  rcases step_cases l i with heq | ⟨cur, comp, j, hcur, hcomp, hji, hjlt, hcase⟩
  · rw [heq]; exact ⟨hmem, hnw⟩
  · rcases hcase with ⟨hAP, heq⟩ | ⟨hBP, heq⟩
    · rw [heq]
      constructor
      · by_cases hmc : m = cur
        · -- the current element is (a copy of) `m` and it fired at `comp`;
          -- by the no-absorber hypothesis `comp` must be another copy of `m`
          by_cases hcm : comp = m
          · subst hcm
            exact mem_eraseIdx_of_getElem? hcomp hji
          · exfalso
            refine hnw comp (mem_of_getElem? hcomp) hcm ?_
            rw [← hmc] at hAP
            exact Or.inl hAP
        · exact mem_eraseIdx_of_ne hmem hcur hmc
      · intro x hx hxm
        exact hnw x (mem_of_mem_eraseIdx hx) hxm
    · obtain ⟨hb1, hb2, hb3⟩ := hBP
      have hcm : cur ≠ m := by
        intro he
        subst he
        omega
      have hpm : comp ≠ m := by
        intro he
        subst he
        omega
      have hnc : ¬ fire m cur := hnw cur (mem_of_getElem? hcur) hcm
      have hnp : ¬ fire m comp := hnw comp (mem_of_getElem? hcomp) hpm
      rw [heq]
      constructor
      · exact mem_set_eraseIdx_of_ne hmem hcur hcomp
          (fun he => hcm he.symm) (fun he => hpm he.symm)
      · intro x hx hxm
        rcases mem_set_eraseIdx_cases hx with hv | hv
        · subst hv
          rw [fire_iff] at hnc hnp ⊢
          simp only [mk_min, mk_max]
          omega
        · exact hnw x hv hxm

/-- Malformed values are never created by the pass. -/
theorem step_malmem {l0 l : List Interval} {i : Nat}
    (h : ∀ x ∈ l, x.max < x.min → x ∈ l0) :
    ∀ x ∈ step l i, x.max < x.min → x ∈ l0 := by
  rcases step_cases l i with heq | ⟨cur, comp, j, hcur, hcomp, hji, hjlt, hcase⟩
  · rw [heq]; exact h
  · rcases hcase with ⟨_, heq⟩ | ⟨hBP, heq⟩
    · rw [heq]
      intro x hx
      exact h x (mem_of_mem_eraseIdx hx)
    · rw [heq]
      intro x hx hxm
      rcases mem_set_eraseIdx_cases hx with hv | hv
      · exfalso
        obtain ⟨hb1, hb2, hb3⟩ := hBP
        rw [hv] at hxm
        simp only [mk_min, mk_max] at hxm
        omega
      · exact h x hv hxm

/-- Survival criterion for a malformed interval: `m` is in the output
iff it is in the input and no other input element fires for it. -/
theorem mal_mem_merge_iff {X : List Interval} {m : Interval} (hm : m.max < m.min) :
    m ∈ merge X ↔ (m ∈ X ∧ ∀ x ∈ X, x ≠ m → ¬ fire m x) := by
  constructor
  · intro h
    constructor
    · exact merge_invariant (fun l => ∀ x ∈ l, x.max < x.min → x ∈ X)
        (fun l i hl => step_malmem hl) X (fun x hx _ => hx) m h hm
    · intro x hx hxm hfx
      have hwit := merge_invariant (fun l => ∃ y ∈ l, y ≠ m ∧ fire m y)
        (fun l i hl => step_wit hm hl) X ⟨x, hx, hxm, hfx⟩
      obtain ⟨y, hy, hym, hfy⟩ := hwit
      obtain ⟨p, hp⟩ := List.mem_iff_getElem?.1 h
      obtain ⟨q, hq⟩ := List.mem_iff_getElem?.1 hy
      have hpq : p ≠ q := by
        intro he
        subst he
        rw [hp] at hq
        exact hym (Option.some.inj hq).symm
      exact merge_pairwise_nofire hpq hp hq hfy
  · rintro ⟨h1, h2⟩
    exact (merge_invariant (fun l => m ∈ l ∧ ∀ x ∈ l, x ≠ m → ¬ fire m x)
      (fun l i hl => step_nwit hm hl) X ⟨h1, h2⟩).1

theorem isHull_le {l : List Interval} {a b : Int} (h : isHull l a b) : a ≤ b := by
  obtain ⟨x, _, hw, hin, _⟩ := h.2.1
  unfold wfI at hw
  unfold insideI at hin
  omega

/-- One step of the pass preserves the hulls of the family. -/
theorem step_isHull (l : List Interval) (i : Nat) (a b : Int) :
    isHull (step l i) a b ↔ isHull l a b := by
  rcases step_cases l i with heq | ⟨cur, comp, j, hcur, hcomp, hji, hjlt, hcase⟩
  · rw [heq]
  · have hcur_mem := mem_of_getElem? hcur
    have hcomp_mem := mem_of_getElem? hcomp
    rcases hcase with ⟨hAP, heq⟩ | ⟨hBP, heq⟩
    · -- rule (a): `cur` is contained in `comp` and is erased
      obtain ⟨ha1, ha2⟩ := hAP
      rw [heq]
      constructor
      · -- a hull of the reduced family is a hull of the full family
        rintro ⟨h1, h2, h3, h4⟩
        have hab : a ≤ b := isHull_le ⟨h1, h2, h3, h4⟩
        refine ⟨?_, ?_, ?_, ?_⟩
        · intro x hx hxw
          by_cases hxc : x = cur
          · subst hxc
            have hcw : wfI comp := by unfold wfI at *; omega
            have := h1 comp (mem_eraseIdx_of_getElem? hcomp hji) hcw
            unfold wfI at hxw
            unfold insideI offsideI at *
            omega
          · exact h1 x (mem_eraseIdx_of_ne hx hcur hxc) hxw
        · obtain ⟨x, hx, hxw, hxi, hxa⟩ := h2
          exact ⟨x, mem_of_mem_eraseIdx hx, hxw, hxi, hxa⟩
        · obtain ⟨x, hx, hxw, hxi, hxb⟩ := h3
          exact ⟨x, mem_of_mem_eraseIdx hx, hxw, hxi, hxb⟩
        · intro c hc1 hc2
          obtain ⟨x, hx, hxw, hxi, hxc1, hxc2⟩ := h4 c hc1 hc2
          exact ⟨x, mem_of_mem_eraseIdx hx, hxw, hxi, hxc1, hxc2⟩
      · -- a hull of the full family is a hull of the reduced family
        rintro ⟨h1, h2, h3, h4⟩
        have hab : a ≤ b := isHull_le ⟨h1, h2, h3, h4⟩
        have transfer : ∀ x ∈ l, wfI x → insideI x a b → x = cur →
            wfI comp ∧ comp ∈ l.eraseIdx i ∧ insideI comp a b ∧
              comp.min ≤ cur.min ∧ cur.max ≤ comp.max := by
          intro x hx hxw hxi hxc
          subst hxc
          have hcw : wfI comp := by unfold wfI at *; omega
          have hclass := h1 comp hcomp_mem hcw
          have hcin : insideI comp a b := by
            unfold insideI offsideI wfI at *
            omega
          exact ⟨hcw, mem_eraseIdx_of_getElem? hcomp hji, hcin, ha1, ha2⟩
        refine ⟨?_, ?_, ?_, ?_⟩
        · intro x hx hxw
          exact h1 x (mem_of_mem_eraseIdx hx) hxw
        · obtain ⟨x, hx, hxw, hxi, hxa⟩ := h2
          by_cases hxc : x = cur
          · obtain ⟨hcw, hcm, hcin, hc1, hc2⟩ := transfer x hx hxw hxi hxc
            refine ⟨comp, hcm, hcw, hcin, ?_⟩
            subst hxc
            unfold insideI at hxi hcin
            omega
          · exact ⟨x, mem_eraseIdx_of_ne hx hcur hxc, hxw, hxi, hxa⟩
        · obtain ⟨x, hx, hxw, hxi, hxb⟩ := h3
          by_cases hxc : x = cur
          · obtain ⟨hcw, hcm, hcin, hc1, hc2⟩ := transfer x hx hxw hxi hxc
            refine ⟨comp, hcm, hcw, hcin, ?_⟩
            subst hxc
            unfold insideI at hxi hcin
            omega
          · exact ⟨x, mem_eraseIdx_of_ne hx hcur hxc, hxw, hxi, hxb⟩
        · intro c hc1 hc2
          obtain ⟨x, hx, hxw, hxi, hxc1, hxc2⟩ := h4 c hc1 hc2
          by_cases hxc : x = cur
          · obtain ⟨hcw, hcm, hcin, hcc1, hcc2⟩ := transfer x hx hxw hxi hxc
            refine ⟨comp, hcm, hcw, hcin, ?_, ?_⟩
            · subst hxc; omega
            · subst hxc; omega
          · exact ⟨x, mem_eraseIdx_of_ne hx hcur hxc, hxw, hxi, hxc1, hxc2⟩
    · -- rule (b): `comp` is overwritten with `⟨cur.min, comp.max⟩`, `cur` erased
      obtain ⟨hb1, hb2, hb3⟩ := hBP
      have hcw : wfI cur := by unfold wfI; omega
      have hpw : wfI comp := by unfold wfI; omega
      have hvw : wfI (Interval.mk cur.min comp.max) := by
        unfold wfI; simp only [mk_min, mk_max]; omega
      have hv_mem : Interval.mk cur.min comp.max ∈
          (l.set j (Interval.mk cur.min comp.max)).eraseIdx i :=
        v_mem_set_eraseIdx hjlt hji
      rw [heq]
      constructor
      · -- hull of the new family → hull of the old family
        rintro ⟨h1, h2, h3, h4⟩
        have hab : a ≤ b := isHull_le ⟨h1, h2, h3, h4⟩
        have hvclass := h1 _ hv_mem hvw
        simp only [insideI, offsideI, mk_min, mk_max] at hvclass
        have hcur_class : insideI cur a b ∨ offsideI cur a b := by
          unfold insideI offsideI
          omega
        have hcomp_class : insideI comp a b ∨ offsideI comp a b := by
          unfold insideI offsideI
          omega
        refine ⟨?_, ?_, ?_, ?_⟩
        · intro x hx hxw
          by_cases hxc : x = cur
          · subst hxc; exact hcur_class
          · by_cases hxp : x = comp
            · subst hxp; exact hcomp_class
            · exact h1 x (mem_set_eraseIdx_of_ne hx hcur hcomp hxc hxp) hxw
        · obtain ⟨x, hx, hxw, hxi, hxa⟩ := h2
          by_cases hxv : x = Interval.mk cur.min comp.max
          · refine ⟨cur, hcur_mem, hcw, ?_, ?_⟩
            · subst hxv
              simp only [insideI, mk_min, mk_max] at hxi
              unfold insideI
              omega
            · subst hxv
              simp only [mk_min] at hxa
              exact hxa
          · rcases mem_set_eraseIdx_cases hx with hv | hv
            · exact absurd hv hxv
            · exact ⟨x, hv, hxw, hxi, hxa⟩
        · obtain ⟨x, hx, hxw, hxi, hxb⟩ := h3
          by_cases hxv : x = Interval.mk cur.min comp.max
          · refine ⟨comp, hcomp_mem, hpw, ?_, ?_⟩
            · subst hxv
              simp only [insideI, mk_min, mk_max] at hxi
              unfold insideI
              omega
            · subst hxv
              simp only [mk_max] at hxb
              exact hxb
          · rcases mem_set_eraseIdx_cases hx with hv | hv
            · exact absurd hv hxv
            · exact ⟨x, hv, hxw, hxi, hxb⟩
        · intro c hc1 hc2
          obtain ⟨x, hx, hxw, hxi, hxc1, hxc2⟩ := h4 c hc1 hc2
          by_cases hxv : x = Interval.mk cur.min comp.max
          · subst hxv
            simp only [insideI, mk_min, mk_max] at hxi
            simp only [mk_min, mk_max] at hxc1 hxc2
            rcases lt_or_le c cur.max with hcc | hcc
            · refine ⟨cur, hcur_mem, hcw, ?_, hxc1, hcc⟩
              unfold insideI
              omega
            · refine ⟨comp, hcomp_mem, hpw, ?_, by omega, hxc2⟩
              unfold insideI
              omega
          · rcases mem_set_eraseIdx_cases hx with hv | hv
            · exact absurd hv hxv
            · exact ⟨x, hv, hxw, hxi, hxc1, hxc2⟩
      · -- hull of the old family → hull of the new family
        rintro ⟨h1, h2, h3, h4⟩
        have hab : a ≤ b := isHull_le ⟨h1, h2, h3, h4⟩
        have hcur_class := h1 cur hcur_mem hcw
        have hcomp_class := h1 comp hcomp_mem hpw
        simp only [insideI, offsideI] at hcur_class hcomp_class
        have hv_class : insideI (Interval.mk cur.min comp.max) a b ∨
            offsideI (Interval.mk cur.min comp.max) a b := by
          simp only [insideI, offsideI, mk_min, mk_max]
          unfold wfI at hcw hpw
          omega
        refine ⟨?_, ?_, ?_, ?_⟩
        · intro x hx hxw
          rcases mem_set_eraseIdx_cases hx with hv | hv
          · subst hv; exact hv_class
          · exact h1 x hv hxw
        · obtain ⟨x, hx, hxw, hxi, hxa⟩ := h2
          by_cases hxc : x = cur
          · subst hxc
            refine ⟨Interval.mk x.min comp.max, hv_mem, hvw, ?_, by simp only [mk_min]; exact hxa⟩
            simp only [insideI, mk_min, mk_max] at *
            omega
          · by_cases hxp : x = comp
            · exfalso
              subst hxp
              simp only [insideI] at hxi
              omega
            · exact ⟨x, mem_set_eraseIdx_of_ne hx hcur hcomp hxc hxp, hxw, hxi, hxa⟩
        · obtain ⟨x, hx, hxw, hxi, hxb⟩ := h3
          by_cases hxp : x = comp
          · subst hxp
            refine ⟨Interval.mk cur.min x.max, hv_mem, hvw, ?_, by simp only [mk_max]; exact hxb⟩
            simp only [insideI, mk_min, mk_max] at *
            omega
          · by_cases hxc : x = cur
            · subst hxc
              refine ⟨Interval.mk x.min comp.max, hv_mem, hvw, ?_, ?_⟩
              · simp only [insideI, mk_min, mk_max] at *
                omega
              · simp only [insideI, mk_max] at *
                omega
            · exact ⟨x, mem_set_eraseIdx_of_ne hx hcur hcomp hxc hxp, hxw, hxi, hxb⟩
        · intro c hc1 hc2
          obtain ⟨x, hx, hxw, hxi, hxc1, hxc2⟩ := h4 c hc1 hc2
          by_cases hxc : x = cur
          · subst hxc
            refine ⟨Interval.mk x.min comp.max, hv_mem, hvw, ?_, ?_, ?_⟩
            · simp only [insideI, mk_min, mk_max] at *
              omega
            · simp only [mk_min]; exact hxc1
            · simp only [mk_max]; omega
          · by_cases hxp : x = comp
            · subst hxp
              refine ⟨Interval.mk cur.min x.max, hv_mem, hvw, ?_, ?_, ?_⟩
              · simp only [insideI, mk_min, mk_max] at *
                omega
              · simp only [mk_min]; omega
              · simp only [mk_max]; exact hxc2
            · exact ⟨x, mem_set_eraseIdx_of_ne hx hcur hcomp hxc hxp, hxw, hxi, hxc1, hxc2⟩

theorem merge_isHull (l : List Interval) (a b : Int) :
    isHull (merge l) a b ↔ isHull l a b := by
  have main := merge_invariant (fun m => ∀ p q : Int, (isHull m p q ↔ isHull l p q))
    (fun m i hm p q => (step_isHull m i p q).trans (hm p q)) l (fun p q => Iff.rfl)
  exact main a b

/-- Two distinct well-formed output elements are disjoint (with a gap:
the max of one is strictly below the min of the other). -/
theorem merge_disjoint {X : List Interval} {x y : Interval}
    (hx : x ∈ merge X) (hy : y ∈ merge X) (hxy : x ≠ y)
    (hxw : wfI x) (hyw : wfI y) : x.max < y.min ∨ y.max < x.min := by
  obtain ⟨p, hp⟩ := List.mem_iff_getElem?.1 hx
  obtain ⟨q, hq⟩ := List.mem_iff_getElem?.1 hy
  have hpq : p ≠ q := by
    intro he
    subst he
    rw [hp] at hq
    exact hxy (Option.some.inj hq)
  have h1 : ¬ fire x y := merge_pairwise_nofire hpq hp hq
  have h2 : ¬ fire y x := merge_pairwise_nofire (Ne.symm hpq) hq hp
  rw [fire_iff] at h1 h2
  unfold wfI at hxw hyw
  omega

/-- Every well-formed output element spans a hull of the output family. -/
theorem mem_merge_isHull {X : List Interval} {x : Interval}
    (hx : x ∈ merge X) (hxw : wfI x) : isHull (merge X) x.min x.max := by
  refine ⟨?_, ⟨x, hx, hxw, ⟨le_refl _, le_refl _⟩, rfl⟩,
    ⟨x, hx, hxw, ⟨le_refl _, le_refl _⟩, rfl⟩, ?_⟩
  · intro y hy hyw
    by_cases hxy : y = x
    · subst hxy
      exact Or.inl ⟨le_refl _, le_refl _⟩
    · have := merge_disjoint hy hx hxy hyw hxw
      unfold offsideI
      omega
  · intro c hc1 hc2
    exact ⟨x, hx, hxw, ⟨le_refl _, le_refl _⟩, hc1, hc2⟩

/-- Conversely, every hull of the output family is spanned by an output
element. -/
theorem isHull_merge_mem {X : List Interval} {a b : Int}
    (h : isHull (merge X) a b) : ∃ x ∈ merge X, wfI x ∧ x.min = a ∧ x.max = b := by
  obtain ⟨h1, h2, h3, h4⟩ := h
  obtain ⟨x, hx, hxw, hxi, hxa⟩ := h2
  obtain ⟨z, hz, hzw, hzi, hzb⟩ := h3
  by_cases hxz : x = z
  · subst hxz
    exact ⟨x, hx, hxw, hxa, hzb⟩
  · exfalso
    have hdis := merge_disjoint hx hz hxz hxw hzw
    unfold wfI at hxw hzw
    unfold insideI at hxi hzi
    have hxmax : x.max < z.min := by omega
    have hc1 : a ≤ x.max := by omega
    have hc2 : x.max < b := by omega
    obtain ⟨w, hw, hww, hwi, hwc1, hwc2⟩ := h4 x.max hc1 hc2
    by_cases hwx : w = x
    · subst hwx
      omega
    · have := merge_disjoint hw hx hwx hww hxw
      unfold wfI at hww
      unfold insideI at hwi
      omega

/-- Membership of a well-formed value in the output is equivalent to
being a hull of the input family. -/
theorem wf_mem_merge_iff (X : List Interval) (v : Interval) (hvw : wfI v) :
    v ∈ merge X ↔ isHull X v.min v.max := by
  rw [← merge_isHull]
  constructor
  · intro h
    exact mem_merge_isHull h hvw
  · intro h
    obtain ⟨x, hx, hxw, hxa, hxb⟩ := isHull_merge_mem h
    have : x = v := ival_ext hxa hxb
    rw [← this]
    exact hx

/-- Complete characterization of the output of `merge` as a set of
values, in terms of the input only. -/
theorem mem_merge_characterization (X : List Interval) (v : Interval) :
    v ∈ merge X ↔
      ((wfI v ∧ isHull X v.min v.max) ∨
       (¬ wfI v ∧ v ∈ X ∧ ∀ x ∈ X, x ≠ v → ¬ fire v x)) := by
  by_cases hvw : wfI v
  · rw [wf_mem_merge_iff X v hvw]
    constructor
    · intro h
      exact Or.inl ⟨hvw, h⟩
    · rintro (⟨_, h⟩ | ⟨h, _⟩)
      · exact h
      · exact absurd hvw h
  · have hm : v.max < v.min := by unfold wfI at hvw; omega
    rw [mal_mem_merge_iff hm]
    constructor
    · intro h
      exact Or.inr ⟨hvw, h⟩
    · rintro (⟨h, _⟩ | ⟨_, h⟩)
      · exact absurd h hvw
      · exact h

/-- Hulls only depend on membership, hence are permutation-invariant. -/
theorem isHull_perm {X Xp : List Interval} (hp : X.Perm Xp) (a b : Int) :
    isHull X a b ↔ isHull Xp a b := by
  have one : ∀ {Y Z : List Interval}, Y.Perm Z → isHull Y a b → isHull Z a b := by
    rintro Y Z hYZ ⟨h1, h2, h3, h4⟩
    refine ⟨?_, ?_, ?_, ?_⟩
    · intro x hx hxw
      exact h1 x (hYZ.mem_iff.2 hx) hxw
    · obtain ⟨x, hx, hrest⟩ := h2
      exact ⟨x, hYZ.mem_iff.1 hx, hrest⟩
    · obtain ⟨x, hx, hrest⟩ := h3
      exact ⟨x, hYZ.mem_iff.1 hx, hrest⟩
    · intro c hc1 hc2
      obtain ⟨x, hx, hrest⟩ := h4 c hc1 hc2
      exact ⟨x, hYZ.mem_iff.1 hx, hrest⟩
  exact ⟨one hp, one hp.symm⟩

/-! ### The `std::equal` comparison of `testMerge` -/

theorem stdEqual_iff {r e : List Interval} (hlen : r.length = e.length) :
    stdEqual r e = true ↔ r = e := by
  induction r generalizing e with
  | nil =>
    cases e with
    | nil => simp [stdEqual]
    | cons b e2 => simp at hlen
  | cons a r2 ih =>
    cases e with
    | nil => simp at hlen
    | cons b e2 =>
      have hlen2 : r2.length = e2.length := by
        simpa using hlen
      simp only [stdEqual, List.zip_cons_cons, List.all_cons, Bool.and_eq_true,
        decide_eq_true_iff, List.cons_eq_cons] at *
      constructor
      · rintro ⟨⟨h1, h2⟩, h3⟩
        exact ⟨ival_ext h1 h2, (ih hlen2).1 h3⟩
      · rintro ⟨h1, h2⟩
        subst h1
        subst h2
        exact ⟨⟨rfl, rfl⟩, (ih hlen2).2 rfl⟩

/-! ### The ten claims -/

/-- C1.  For every finite input sequence of well-formed intervals, the
output of `merge` is a fixed point of the merge relation: for every
pair of distinct output intervals `P` and `Q`, neither is contained in
the other and their ranges neither overlap nor touch — the max of one
is strictly less than the min of the other.  In particular overlapping
inputs that share a min are eventually merged, even though the single
backward pass applies the asymmetric rules (a) and (b) only once per
element. -/
theorem merge_output_fixed_point (l : List Interval) (hwf : ∀ x ∈ l, wfI x)
    (i j : Nat) (P Q : Interval) (hij : i ≠ j)
    (hP : (merge l)[i]? = some P) (hQ : (merge l)[j]? = some Q) :
    ¬ (Q.min ≤ P.min ∧ P.max ≤ Q.max) ∧ ¬ (P.min ≤ Q.min ∧ Q.max ≤ P.max) ∧
      (P.max < Q.min ∨ Q.max < P.min) := by
  have hPw := merge_wf hwf P (mem_of_getElem? hP)
  have hQw := merge_wf hwf Q (mem_of_getElem? hQ)
  have h1 : ¬ fire P Q := merge_pairwise_nofire hij hP hQ
  have h2 : ¬ fire Q P := merge_pairwise_nofire (Ne.symm hij) hQ hP
  rw [fire_iff] at h1 h2
  unfold wfI at hPw hQw
  omega

theorem merge_output_fixed_point_witness :
    (∀ x ∈ [Interval.mk 1 2, Interval.mk 4 5], wfI x) ∧ (0 : Nat) ≠ 1 ∧
    (merge [Interval.mk 1 2, Interval.mk 4 5])[0]? = some (Interval.mk 1 2) ∧
    (merge [Interval.mk 1 2, Interval.mk 4 5])[1]? = some (Interval.mk 4 5) ∧
    (¬ ((Interval.mk 4 5).min ≤ (Interval.mk 1 2).min ∧
        (Interval.mk 1 2).max ≤ (Interval.mk 4 5).max) ∧
     ¬ ((Interval.mk 1 2).min ≤ (Interval.mk 4 5).min ∧
        (Interval.mk 4 5).max ≤ (Interval.mk 1 2).max) ∧
     ((Interval.mk 1 2).max < (Interval.mk 4 5).min ∨
      (Interval.mk 4 5).max < (Interval.mk 1 2).min)) :=
  ⟨by decide, by decide, by decide, by decide,
    merge_output_fixed_point [Interval.mk 1 2, Interval.mk 4 5] (by decide)
      0 1 (Interval.mk 1 2) (Interval.mk 4 5) (by decide) (by decide) (by decide)⟩

/-- C2.  Coverage preservation: for every finite input sequence of
well-formed intervals, an integer is covered by the union of the output
intervals iff it is covered by the union of the input intervals. -/
theorem merge_coverage_preserved (l : List Interval) (hwf : ∀ x ∈ l, wfI x)
    (t : Int) : covers (merge l) t ↔ covers l t :=
  merge_covers l t

theorem merge_coverage_preserved_witness :
    (∀ x ∈ [Interval.mk 1 3, Interval.mk 2 5], wfI x) ∧
    (covers (merge [Interval.mk 1 3, Interval.mk 2 5]) 4 ↔
      covers [Interval.mk 1 3, Interval.mk 2 5] 4) :=
  ⟨by decide, merge_coverage_preserved [Interval.mk 1 3, Interval.mk 2 5] (by decide) 4⟩

/-- C3, counterexample.  `testMerge` does not compare result and
expectation as unordered sets: here the two sequences hold the same
boundary pairs (equal as multisets) and have the same size `2`, yet
`testMerge` reports failure, because `std::equal` compares position by
position. -/
theorem testMerge_set_equal_counterexample :
    ((merge [Interval.mk 1 2, Interval.mk 3 4] : Multiset Interval) =
      ([Interval.mk 3 4, Interval.mk 1 2] : Multiset Interval)) ∧
    (merge [Interval.mk 1 2, Interval.mk 3 4]).length =
      ([Interval.mk 3 4, Interval.mk 1 2] : List Interval).length ∧
    (testMerge [Interval.mk 1 2, Interval.mk 3 4]
      [Interval.mk 3 4, Interval.mk 1 2]).success = false := by
  refine ⟨?_, by decide, by decide⟩
  decide

/-- C3, amended.  `testMerge` reports success exactly when the merged
result equals the expected sequence elementwise and in order (i.e. as
ordered sequences, not as sets). -/
theorem testMerge_success_iff_exact (input expected : List Interval) :
    (testMerge input expected).success = true ↔ merge input = expected := by
  unfold testMerge
  by_cases hlen : (merge input).length = expected.length
  · simp only [hlen, ne_eq, not_true_eq_false, if_false]
    cases hse : stdEqual (merge input) expected with
    | true =>
      simp only [Bool.true_eq_false, if_false]
      constructor
      · intro _
        exact (stdEqual_iff hlen).1 hse
      · intro _
        trivial
    | false =>
      simp only [if_true]
      constructor
      · intro h
        exact absurd h (by simp)
      · intro h
        exfalso
        rw [(stdEqual_iff hlen).2 h] at hse
        exact Bool.noConfusion hse
  · simp only [ne_eq, hlen, not_false_eq_true, if_true]
    constructor
    · intro h
      exact absurd h (by simp)
    · intro h
      exfalso
      rw [h] at hlen
      exact hlen rfl

/-- C4.  Order independence: for every finite input sequence `X` and
every permutation `X'` of it, `merge X'` holds exactly the same set of
boundary pairs as `merge X`. -/
theorem merge_order_independent (X Xp : List Interval) (hperm : X.Perm Xp) :
    {a : Interval | a ∈ merge X} = {a : Interval | a ∈ merge Xp} := by
  ext v
  simp only [Set.mem_setOf_eq]
  rw [mem_merge_characterization X v, mem_merge_characterization Xp v,
    isHull_perm hperm v.min v.max]
  constructor
  · rintro (h | ⟨h1, h2, h3⟩)
    · exact Or.inl h
    · exact Or.inr ⟨h1, hperm.mem_iff.1 h2, fun x hx => h3 x (hperm.mem_iff.2 hx)⟩
  · rintro (h | ⟨h1, h2, h3⟩)
    · exact Or.inl h
    · exact Or.inr ⟨h1, hperm.mem_iff.2 h2, fun x hx => h3 x (hperm.mem_iff.1 hx)⟩

theorem merge_order_independent_witness :
    ([Interval.mk 1 5, Interval.mk 5 10].Perm [Interval.mk 5 10, Interval.mk 1 5]) ∧
    {a : Interval | a ∈ merge [Interval.mk 1 5, Interval.mk 5 10]} =
      {a : Interval | a ∈ merge [Interval.mk 5 10, Interval.mk 1 5]} :=
  ⟨List.Perm.swap (Interval.mk 5 10) (Interval.mk 1 5) [],
    merge_order_independent [Interval.mk 1 5, Interval.mk 5 10]
      [Interval.mk 5 10, Interval.mk 1 5]
      (List.Perm.swap (Interval.mk 5 10) (Interval.mk 1 5) [])⟩

/-- C5.  Idempotence: re-merging a merged sequence changes nothing —
the sequences are literally equal, hence also set-equal. -/
theorem merge_idempotent (X : List Interval) :
    merge (merge X) = merge X ∧
    {a : Interval | a ∈ merge (merge X)} = {a : Interval | a ∈ merge X} := by
  refine ⟨merge_merge X, ?_⟩
  rw [merge_merge X]

/-- C6.  `merge` never mutates the caller's sequence: the C++ parameter
is taken by value, every erase and overwrite acts on the callee's
private copy, and after the call the caller still holds exactly the
original intervals in the original order, while the callee's copy holds
the merged result. -/
theorem merge_does_not_mutate_input (x : List Interval) :
    (callMerge x).callerList = x ∧ (callMerge x).calleeList = merge x := by
  have main : ∀ k e, (callRun k e).callerList = e.callerList ∧
      (callRun k e).calleeList = mergeAux k e.calleeList := by
    intro k
    induction k with
    | zero => intro e; exact ⟨rfl, rfl⟩
    | succ k ih =>
      intro e
      have h := ih (callStep e k)
      exact ⟨h.1, h.2⟩
  exact main x.length (callInit x)

/-- C7.  Empty and singleton inputs pass through unchanged. -/
theorem merge_empty_singleton :
    merge ([] : List Interval) = [] ∧ ∀ I : Interval, merge [I] = [I] :=
  ⟨rfl, fun _ => rfl⟩

/-- C8.  No boundary is invented: every output interval takes its min
from some input interval's min and its max from some input interval's
max. -/
theorem merge_bounds_from_input (l : List Interval) (iv : Interval)
    (hiv : iv ∈ merge l) :
    (∃ a ∈ l, iv.min = a.min) ∧ (∃ b ∈ l, iv.max = b.max) :=
  merge_bounds l iv hiv

theorem merge_bounds_from_input_witness :
    (Interval.mk 1 5 ∈ merge [Interval.mk 1 3, Interval.mk 2 5]) ∧
    ((∃ a ∈ [Interval.mk 1 3, Interval.mk 2 5], (Interval.mk 1 5).min = a.min) ∧
     (∃ b ∈ [Interval.mk 1 3, Interval.mk 2 5], (Interval.mk 1 5).max = b.max)) :=
  ⟨by decide, merge_bounds_from_input [Interval.mk 1 3, Interval.mk 2 5]
    (Interval.mk 1 5) (by decide)⟩

/-- C9.  Termination: the pass performs exactly one scan per visited
index, each iteration erases at most one element (a collapse erases
exactly one), so the embedded `merge` is a total function and its
output is never longer than its input. -/
theorem merge_terminates (l : List Interval) :
    (merge l).length ≤ l.length ∧
    (∀ i, (step l i).length = l.length ∨ (step l i).length + 1 = l.length) := by
  constructor
  · have main : ∀ k m, (mergeAux k m).length ≤ m.length := by
      intro k
      induction k with
      | zero => intro m; exact le_refl _
      | succ k ih =>
        intro m
        have h1 := ih (step m k)
        have h2 := step_length m k
        show (mergeAux k (step m k)).length ≤ m.length
        omega
    exact main l.length l
  · exact step_length l

/-- C10.  `testMerge` is declared `bool` but contains no `return`
statement on any control path: whichever banner is printed, the
function never produces the declared boolean result. -/
theorem testMerge_never_returns (input expected : List Interval) :
    (testMerge input expected).ret = none := by
  simp only [testMerge]
  split
  · rfl
  · split
    · rfl
    · rfl

end MergeInterval
